import Mathlib

/-!
Verification of the synchronization core of `avp-local-agent`.

The repository's `src/private/sources/mod.rs` declares the `Cache`, `Load` and
`Read` traits, the `CacheChange` enum and the retry timeout constant.  The
concrete modules they describe (`cache`, `retry`, the loader/reader and the
orchestration in `policy/core`) are declared there but their code is not part
of the examined sources, so their behaviour is modelled from the specification
(spec.md §4.1–§4.5, §7) and marked as such on each definition.
-/

set_option autoImplicit false
set_option linter.unusedSectionVars false

namespace AvpLocalAgent

/-- Embedded from `src/private/sources/mod.rs` lines 18–26: the `CacheChange`
enum with variants `Created`, `Updated`, `Deleted` (derives `Eq`/`PartialEq`). -/
inductive CacheChange where
  | Created
  | Updated
  | Deleted
  deriving DecidableEq

/-- Embedded from `src/private/sources/mod.rs` line 15:
`pub static API_RETRY_TIMEOUT_IN_SECONDS: u64 = 5;`. -/
def API_RETRY_TIMEOUT_IN_SECONDS : Nat := 5

variable {K V : Type} [DecidableEq K] [DecidableEq V]

/-- Modelled from the spec: the concrete cache module (`pub mod cache` in
`src/private/sources/mod.rs`, code not among the examined sources) is a
mapping from Identifier to Entity Item with unique keys (spec §3, §4.4),
embedded as an association list of key/value pairs. `lookupC` is the `get`
operation: it returns the value stored at the first matching key, or `none`. -/
def lookupC : List (K × V) → K → Option V
  | [], _ => none
  | (a, b) :: t, k => if a = k then some b else lookupC t k

/-- Modelled from the spec: `put(&mut self, key, value) -> Option<Value>`
(spec §4.4) — inserts or replaces and returns the previous value if one
existed.  Returns the pair (previous value, updated store). -/
def putC : List (K × V) → K → V → Option V × List (K × V)
  | [], k, v => (none, [(k, v)])
  | (a, b) :: t, k, v =>
    if a = k then (some b, (k, v) :: t)
    else ((putC t k v).1, (a, b) :: (putC t k v).2)

/-- Modelled from the spec: `remove(&mut self, key) -> Option<Value>`
(spec §4.4) — deletes and returns the removed value, or `none` if the key
was not present.  Returns the pair (removed value, updated store). -/
def removeC : List (K × V) → K → Option V × List (K × V)
  | [], _ => (none, [])
  | (a, b) :: t, k =>
    if a = k then (some b, t)
    else ((removeC t k).1, (a, b) :: (removeC t k).2)

/-- The cache invariant from spec §3: keys are unique. -/
abbrev KeysNodup (c : List (K × V)) : Prop := (c.map Prod.fst).Nodup

/-- `lookupC` returns `none` exactly when no entry has the key. -/
theorem lookupC_eq_none_iff (c : List (K × V)) (k : K) :
    lookupC c k = none ↔ k ∉ c.map Prod.fst := by
  induction c with
  | nil => simp [lookupC]
  | cons p t ih =>
    obtain ⟨a, b⟩ := p
    by_cases h : a = k
    · subst h
      simp [lookupC]
    · simp [lookupC, h, ih, Ne.symm h]

/-- A successful `lookupC` result is an entry of the list. -/
theorem mem_of_lookupC_eq_some {c : List (K × V)} {k : K} {v : V}
    (h : lookupC c k = some v) : (k, v) ∈ c := by
  induction c with
  | nil => simp [lookupC] at h
  | cons p t ih =>
    obtain ⟨a, b⟩ := p
    by_cases hak : a = k
    · simp [lookupC, hak] at h
      simp [hak, h]
    · simp [lookupC, hak] at h
      exact List.mem_cons_of_mem _ (ih h)

/-- With unique keys, every entry is found by `lookupC`. -/
theorem lookupC_eq_some_of_mem {c : List (K × V)} {k : K} {v : V}
    (hc : KeysNodup c) (h : (k, v) ∈ c) : lookupC c k = some v := by
  induction c with
  | nil => simp at h
  | cons p t ih =>
    obtain ⟨a, b⟩ := p
    simp only [KeysNodup, List.map_cons, List.nodup_cons] at hc
    rcases List.mem_cons.mp h with heq | hmem
    · cases heq
      simp [lookupC]
    · have hak : a ≠ k := by
        rintro rfl
        exact hc.1 (List.mem_map.mpr ⟨(a, v), hmem, rfl⟩)
      simp [lookupC, hak, ih hc.2 hmem]

/-- Any entry's key has a non-`none` lookup. -/
theorem lookupC_ne_none_of_mem {c : List (K × V)} {k : K} {v : V}
    (h : (k, v) ∈ c) : lookupC c k ≠ none := by
  rw [Ne, lookupC_eq_none_iff]
  simp only [not_not]
  exact List.mem_map.mpr ⟨(k, v), h, rfl⟩

/-- `put` returns the previous binding of the key. -/
theorem putC_fst (c : List (K × V)) (k : K) (v : V) :
    (putC c k v).1 = lookupC c k := by
  induction c with
  | nil => simp [putC, lookupC]
  | cons p t ih =>
    obtain ⟨a, b⟩ := p
    by_cases h : a = k <;> simp [putC, lookupC, h, ih]

/-- `remove` returns the previous binding of the key. -/
theorem removeC_fst (c : List (K × V)) (k : K) :
    (removeC c k).1 = lookupC c k := by
  induction c with
  | nil => simp [removeC, lookupC]
  | cons p t ih =>
    obtain ⟨a, b⟩ := p
    by_cases h : a = k <;> simp [removeC, lookupC, h, ih]

/-- After `put k v` the key `k` is bound to `v`. -/
theorem lookupC_putC_self (c : List (K × V)) (k : K) (v : V) :
    lookupC (putC c k v).2 k = some v := by
  induction c with
  | nil => simp [putC, lookupC]
  | cons p t ih =>
    obtain ⟨a, b⟩ := p
    by_cases h : a = k <;> simp [putC, lookupC, h, ih]

/-- `put k v` does not change the binding of any other key. -/
theorem lookupC_putC_other (c : List (K × V)) (k : K) (v : V) {q : K}
    (h : q ≠ k) : lookupC (putC c k v).2 q = lookupC c q := by
  have hkq : k ≠ q := Ne.symm h
  induction c with
  | nil => simp [putC, lookupC, hkq]
  | cons p t ih =>
    obtain ⟨a, b⟩ := p
    by_cases hak : a = k
    · subst hak
      simp [putC, lookupC, hkq]
    · by_cases haq : a = q <;> simp [putC, lookupC, hak, haq, h, hkq, ih]

/-- With unique keys, after `remove k` the key `k` is absent. -/
theorem lookupC_removeC_self {c : List (K × V)} {k : K}
    (hc : KeysNodup c) : lookupC (removeC c k).2 k = none := by
  induction c with
  | nil => simp [removeC, lookupC]
  | cons p t ih =>
    obtain ⟨a, b⟩ := p
    simp only [KeysNodup, List.map_cons, List.nodup_cons] at hc
    by_cases hak : a = k
    · subst hak
      simp only [removeC, if_pos rfl]
      exact (lookupC_eq_none_iff t a).mpr hc.1
    · simp [removeC, lookupC, hak, ih hc.2]

/-- `remove k` does not change the binding of any other key. -/
theorem lookupC_removeC_other (c : List (K × V)) (k : K) {q : K}
    (h : q ≠ k) : lookupC (removeC c k).2 q = lookupC c q := by
  have hkq : k ≠ q := Ne.symm h
  induction c with
  | nil => simp [removeC, lookupC]
  | cons p t ih =>
    obtain ⟨a, b⟩ := p
    by_cases hak : a = k
    · subst hak
      simp [removeC, lookupC, hkq]
    · by_cases haq : a = q <;> simp [removeC, lookupC, hak, haq, h, hkq, ih]

/-- The keys present after a `put` are the old keys plus the new key. -/
theorem mem_keys_putC (c : List (K × V)) (k : K) (v : V) (q : K) :
    q ∈ (putC c k v).2.map Prod.fst ↔ q ∈ c.map Prod.fst ∨ q = k := by
  induction c with
  | nil => simp [putC, eq_comm]
  | cons p t ih =>
    obtain ⟨a, b⟩ := p
    by_cases h : a = k
    · simp only [putC, if_pos h, List.map_cons, List.mem_cons]
      subst h
      tauto
    · simp only [putC, if_neg h, List.map_cons, List.mem_cons, ih]
      tauto

/-- Every key present after a `remove` was present before. -/
theorem mem_keys_removeC {c : List (K × V)} {k : K} {q : K}
    (h : q ∈ (removeC c k).2.map Prod.fst) : q ∈ c.map Prod.fst := by
  induction c with
  | nil => simp [removeC] at h
  | cons p t ih =>
    obtain ⟨a, b⟩ := p
    by_cases hak : a = k
    · subst hak
      simp only [removeC, if_pos rfl] at h
      simp only [List.map_cons, List.mem_cons]
      exact Or.inr h
    · simp only [removeC, if_neg hak, List.map_cons, List.mem_cons] at h ⊢
      rcases h with h | h
      · exact Or.inl h
      · exact Or.inr (ih h)

/-- `put` preserves uniqueness of keys. -/
theorem keysNodup_putC {c : List (K × V)} (k : K) (v : V)
    (hc : KeysNodup c) : KeysNodup (putC c k v).2 := by
  induction c with
  | nil => simp [putC, KeysNodup]
  | cons p t ih =>
    obtain ⟨a, b⟩ := p
    simp only [KeysNodup, List.map_cons, List.nodup_cons] at hc
    by_cases h : a = k
    · simp only [putC, if_pos h, KeysNodup, List.map_cons, List.nodup_cons]
      subst h
      exact hc
    · have ht := ih hc.2
      simp only [putC, if_neg h, KeysNodup, List.map_cons, List.nodup_cons]
      refine ⟨fun hm => ?_, ht⟩
      rcases (mem_keys_putC t k v a).mp hm with hm | hm
      · exact hc.1 hm
      · exact h hm

/-- `remove` preserves uniqueness of keys. -/
theorem keysNodup_removeC {c : List (K × V)} (k : K)
    (hc : KeysNodup c) : KeysNodup (removeC c k).2 := by
  induction c with
  | nil => simp [removeC, KeysNodup]
  | cons p t ih =>
    obtain ⟨a, b⟩ := p
    simp only [KeysNodup, List.map_cons, List.nodup_cons] at hc
    by_cases h : a = k
    · subst h
      simp only [removeC, if_pos rfl]
      exact hc.2
    · have ht := ih hc.2
      simp only [removeC, if_neg h, KeysNodup, List.map_cons, List.nodup_cons]
      exact ⟨fun hm => hc.1 (mem_keys_removeC hm), ht⟩

/-- C4.  put/remove return contract: `put` on a fresh key returns absent and
on an existing key returns the prior value; `remove` on a missing key returns
absent, and on a present key returns the removed value and deletes the entry. -/
theorem put_remove_return_contract (c : List (K × V)) (k : K) (v : V)
    (hc : KeysNodup c) :
    (putC c k v).1 = lookupC c k ∧
    (removeC c k).1 = lookupC c k ∧
    lookupC (removeC c k).2 k = none := by
  exact ⟨putC_fst c k v, removeC_fst c k, lookupC_removeC_self hc⟩

/-- Witness for C4 at the concrete cache `[(1, 10), (2, 20)]`, key `2`. -/
theorem put_remove_return_contract_witness :
    KeysNodup [(1, 10), (2, 20)] ∧
    ((putC [(1, 10), (2, 20)] 2 99).1 = lookupC [(1, 10), (2, 20)] 2 ∧
     (removeC [(1, 10), (2, 20)] 2).1 = lookupC [(1, 10), (2, 20)] 2 ∧
     lookupC (removeC ([(1, 10), (2, 20)] : List (Nat × Nat)) 2).2 2 = none) :=
  ⟨by decide, put_remove_return_contract [(1, 10), (2, 20)] 2 99 (by decide)⟩

/-- C10.  Round-trip: after `put k v`, `get k` returns `v` and every other
key's binding is unchanged; after `remove k`, `get k` is absent and every
other key's binding is unchanged. -/
theorem put_remove_get_roundtrip (c : List (K × V)) (k : K) (v : V)
    (hc : KeysNodup c) :
    lookupC (putC c k v).2 k = some v ∧
    (∀ q, q ≠ k → lookupC (putC c k v).2 q = lookupC c q) ∧
    lookupC (removeC c k).2 k = none ∧
    (∀ q, q ≠ k → lookupC (removeC c k).2 q = lookupC c q) := by
  exact ⟨lookupC_putC_self c k v, fun q hq => lookupC_putC_other c k v hq,
    lookupC_removeC_self hc, fun q hq => lookupC_removeC_other c k hq⟩

/-- Witness for C10 at the concrete cache `[(1, 10), (2, 20)]`, key `1`. -/
theorem put_remove_get_roundtrip_witness :
    KeysNodup [(1, 10), (2, 20)] ∧
    (lookupC (putC ([(1, 10), (2, 20)] : List (Nat × Nat)) 1 77).2 1 = some 77 ∧
     (∀ q, q ≠ 1 → lookupC (putC ([(1, 10), (2, 20)] : List (Nat × Nat)) 1 77).2 q =
        lookupC [(1, 10), (2, 20)] q) ∧
     lookupC (removeC ([(1, 10), (2, 20)] : List (Nat × Nat)) 1).2 1 = none ∧
     (∀ q, q ≠ 1 → lookupC (removeC ([(1, 10), (2, 20)] : List (Nat × Nat)) 1).2 q =
        lookupC [(1, 10), (2, 20)] q)) :=
  ⟨by decide, put_remove_get_roundtrip [(1, 10), (2, 20)] 1 77 (by decide)⟩

/-- Modelled from the spec: `get_pending_updates(&self, loaded_items)`
(spec §4.4) — the reconciliation diff.  For every identifier in
`loaded_items` absent from the cache it emits `Created`; present in both with
a different payload, `Updated`; identical payload, omitted.  For every
identifier in the cache absent from `loaded_items` it emits `Deleted`. -/
def getPendingUpdates (c loaded : List (K × V)) : List (K × CacheChange) :=
  (loaded.filterMap fun p =>
    match lookupC c p.1 with
    | none => some (p.1, CacheChange.Created)
    | some cv => if cv = p.2 then none else some (p.1, CacheChange.Updated)) ++
  (c.filterMap fun p =>
    match lookupC loaded p.1 with
    | some _ => none
    | none => some (p.1, CacheChange.Deleted))

/-- `(k, Created)` is in the diff exactly when `k` is loaded but not cached. -/
theorem mem_created_iff (c l : List (K × V)) (k : K) :
    (k, CacheChange.Created) ∈ getPendingUpdates c l ↔
      lookupC c k = none ∧ lookupC l k ≠ none := by
  unfold getPendingUpdates
  rw [List.mem_append]
  constructor
  · rintro (h | h)
    · obtain ⟨⟨a, b⟩, hmem, hf⟩ := List.mem_filterMap.mp h
      rcases hca : lookupC c a with _ | cv
      · rw [hca] at hf
        simp only [Option.some.injEq, Prod.mk.injEq] at hf
        obtain ⟨rfl, -⟩ := hf
        exact ⟨hca, lookupC_ne_none_of_mem hmem⟩
      · rw [hca] at hf
        by_cases hcb : cv = b <;> simp [hcb] at hf
    · obtain ⟨⟨a, b⟩, hmem, hf⟩ := List.mem_filterMap.mp h
      rcases hla : lookupC l a with _ | lv <;> rw [hla] at hf <;> simp at hf
  · rintro ⟨hc, hl⟩
    obtain ⟨w, hw⟩ := Option.ne_none_iff_exists.mp hl
    left
    refine List.mem_filterMap.mpr ⟨(k, w), mem_of_lookupC_eq_some hw.symm, ?_⟩
    simp [hc]

/-- `(k, Deleted)` is in the diff exactly when `k` is cached but not loaded. -/
theorem mem_deleted_iff (c l : List (K × V)) (k : K) :
    (k, CacheChange.Deleted) ∈ getPendingUpdates c l ↔
      lookupC c k ≠ none ∧ lookupC l k = none := by
  unfold getPendingUpdates
  rw [List.mem_append]
  constructor
  · rintro (h | h)
    · obtain ⟨⟨a, b⟩, hmem, hf⟩ := List.mem_filterMap.mp h
      rcases hca : lookupC c a with _ | cv <;> rw [hca] at hf
      · simp at hf
      · by_cases hcb : cv = b <;> simp [hcb] at hf
    · obtain ⟨⟨a, b⟩, hmem, hf⟩ := List.mem_filterMap.mp h
      rcases hla : lookupC l a with _ | lv <;> rw [hla] at hf
      · simp only [Option.some.injEq, Prod.mk.injEq] at hf
        obtain ⟨rfl, -⟩ := hf
        exact ⟨lookupC_ne_none_of_mem hmem, hla⟩
      · simp at hf
  · rintro ⟨hc, hl⟩
    obtain ⟨w, hw⟩ := Option.ne_none_iff_exists.mp hc
    right
    refine List.mem_filterMap.mpr ⟨(k, w), mem_of_lookupC_eq_some hw.symm, ?_⟩
    simp [hl]

/-- With unique loaded keys, `(k, Updated)` is in the diff exactly when `k`
is cached and loaded with different payloads. -/
theorem mem_updated_iff (c l : List (K × V)) (hl : KeysNodup l) (k : K) :
    (k, CacheChange.Updated) ∈ getPendingUpdates c l ↔
      ∃ cv lv, lookupC c k = some cv ∧ lookupC l k = some lv ∧ cv ≠ lv := by
  unfold getPendingUpdates
  rw [List.mem_append]
  constructor
  · rintro (h | h)
    · obtain ⟨⟨a, b⟩, hmem, hf⟩ := List.mem_filterMap.mp h
      rcases hca : lookupC c a with _ | cv <;> rw [hca] at hf
      · simp at hf
      · by_cases hcb : cv = b
        · simp [hcb] at hf
        · simp only [if_neg hcb, Option.some.injEq, Prod.mk.injEq] at hf
          obtain ⟨rfl, -⟩ := hf
          exact ⟨cv, b, hca, lookupC_eq_some_of_mem hl hmem, hcb⟩
    · obtain ⟨⟨a, b⟩, hmem, hf⟩ := List.mem_filterMap.mp h
      rcases hla : lookupC l a with _ | lv <;> rw [hla] at hf <;> simp at hf
  · rintro ⟨cv, lv, hcv, hlv, hne⟩
    left
    refine List.mem_filterMap.mpr ⟨(k, lv), mem_of_lookupC_eq_some hlv, ?_⟩
    simp [hcv, hne]

/-- The first components of a `filterMap` that preserves first components
form a sublist of the original first components. -/
theorem keys_filterMap_sublist {β : Type} (f : K × V → Option (K × β))
    (hf : ∀ p q, f p = some q → q.1 = p.1) (l : List (K × V)) :
    ((l.filterMap f).map Prod.fst).Sublist (l.map Prod.fst) := by
  induction l with
  | nil => simp
  | cons p t ih =>
    rcases hfp : f p with _ | q
    · rw [List.filterMap_cons_none hfp, List.map_cons]
      exact ih.cons p.1
    · rw [List.filterMap_cons_some hfp, List.map_cons, List.map_cons,
        hf p q hfp]
      exact ih.cons₂ p.1

/-- Every key in the first diff half is a loaded key. -/
theorem mem_fst_part_loaded {c l : List (K × V)} {k : K}
    (h : k ∈ (l.filterMap fun p =>
      match lookupC c p.1 with
      | none => some (p.1, CacheChange.Created)
      | some cv => if cv = p.2 then none
        else some (p.1, CacheChange.Updated)).map Prod.fst) :
    lookupC l k ≠ none := by
  obtain ⟨⟨a, ch⟩, hmem, rfl⟩ := List.mem_map.mp h
  obtain ⟨⟨x, y⟩, hxy, hf⟩ := List.mem_filterMap.mp hmem
  rcases hcx : lookupC c x with _ | cv <;> rw [hcx] at hf
  · simp only [Option.some.injEq, Prod.mk.injEq] at hf
    obtain ⟨rfl, -⟩ := hf
    exact lookupC_ne_none_of_mem hxy
  · by_cases hcb : cv = y
    · simp [hcb] at hf
    · simp only [if_neg hcb, Option.some.injEq, Prod.mk.injEq] at hf
      obtain ⟨rfl, -⟩ := hf
      exact lookupC_ne_none_of_mem hxy

/-- Every key in the second diff half is absent from the loaded listing. -/
theorem mem_fst_part_deleted {c l : List (K × V)} {k : K}
    (h : k ∈ (c.filterMap fun p =>
      match lookupC l p.1 with
      | some _ => none
      | none => some (p.1, CacheChange.Deleted)).map Prod.fst) :
    lookupC l k = none := by
  obtain ⟨⟨a, ch⟩, hmem, rfl⟩ := List.mem_map.mp h
  obtain ⟨⟨x, y⟩, hxy, hf⟩ := List.mem_filterMap.mp hmem
  rcases hlx : lookupC l x with _ | lv <;> rw [hlx] at hf
  · simp only [Option.some.injEq, Prod.mk.injEq] at hf
    obtain ⟨rfl, -⟩ := hf
    exact hlx
  · simp at hf

/-- With unique cache and loaded keys, the diff mentions each key at most
once. -/
theorem keysNodup_getPendingUpdates {c l : List (K × V)}
    (hc : KeysNodup c) (hl : KeysNodup l) :
    ((getPendingUpdates c l).map Prod.fst).Nodup := by
  unfold getPendingUpdates
  rw [List.map_append]
  refine List.Nodup.append ?_ ?_ ?_
  · refine List.Nodup.sublist (keys_filterMap_sublist _ ?_ l) hl
    intro p q hf
    rcases hcp : lookupC c p.1 with _ | cv <;> rw [hcp] at hf
    · simp only [Option.some.injEq] at hf
      rw [← hf]
    · by_cases hcb : cv = p.2
      · simp [hcb] at hf
      · simp only [if_neg hcb, Option.some.injEq] at hf
        rw [← hf]
  · refine List.Nodup.sublist (keys_filterMap_sublist _ ?_ c) hc
    intro p q hf
    rcases hlp : lookupC l p.1 with _ | lv <;> rw [hlp] at hf
    · simp only [Option.some.injEq] at hf
      rw [← hf]
    · simp at hf
  · intro k h1 h2
    exact mem_fst_part_loaded h1 (mem_fst_part_deleted h2)

/-- C1.  Diff completeness: `get_pending_updates` mentions each key of
`keys(C) ∪ keys(L)` at most once, and classifies exactly: `Created` = loaded
but not cached, `Deleted` = cached but not loaded, `Updated` = present in
both with different payloads; keys with identical payloads appear in none. -/
theorem diff_completeness (c l : List (K × V))
    (hc : KeysNodup c) (hl : KeysNodup l) :
    ((getPendingUpdates c l).map Prod.fst).Nodup ∧
    ∀ k : K,
      ((k, CacheChange.Created) ∈ getPendingUpdates c l ↔
        lookupC c k = none ∧ lookupC l k ≠ none) ∧
      ((k, CacheChange.Deleted) ∈ getPendingUpdates c l ↔
        lookupC c k ≠ none ∧ lookupC l k = none) ∧
      ((k, CacheChange.Updated) ∈ getPendingUpdates c l ↔
        ∃ cv lv, lookupC c k = some cv ∧ lookupC l k = some lv ∧ cv ≠ lv) := by
  exact ⟨keysNodup_getPendingUpdates hc hl, fun k =>
    ⟨mem_created_iff c l k, mem_deleted_iff c l k, mem_updated_iff c l hl k⟩⟩

/-- Witness for C1 at the cache `[(1, 10), (2, 20), (3, 30)]` and the loaded
listing `[(2, 20), (3, 33), (4, 40)]`. -/
theorem diff_completeness_witness :
    KeysNodup [(1, 10), (2, 20), (3, 30)] ∧
    KeysNodup [(2, 20), (3, 33), (4, 40)] ∧
    (((getPendingUpdates [(1, 10), (2, 20), (3, 30)]
        [(2, 20), (3, 33), (4, 40)]).map Prod.fst).Nodup ∧
     ∀ k : Nat,
      ((k, CacheChange.Created) ∈ getPendingUpdates [(1, 10), (2, 20), (3, 30)]
          [(2, 20), (3, 33), (4, 40)] ↔
        lookupC [(1, 10), (2, 20), (3, 30)] k = none ∧
        lookupC [(2, 20), (3, 33), (4, 40)] k ≠ none) ∧
      ((k, CacheChange.Deleted) ∈ getPendingUpdates [(1, 10), (2, 20), (3, 30)]
          [(2, 20), (3, 33), (4, 40)] ↔
        lookupC [(1, 10), (2, 20), (3, 30)] k ≠ none ∧
        lookupC [(2, 20), (3, 33), (4, 40)] k = none) ∧
      ((k, CacheChange.Updated) ∈ getPendingUpdates [(1, 10), (2, 20), (3, 30)]
          [(2, 20), (3, 33), (4, 40)] ↔
        ∃ cv lv, lookupC [(1, 10), (2, 20), (3, 30)] k = some cv ∧
          lookupC [(2, 20), (3, 33), (4, 40)] k = some lv ∧ cv ≠ lv)) :=
  ⟨by decide, by decide,
    diff_completeness [(1, 10), (2, 20), (3, 30)] [(2, 20), (3, 33), (4, 40)]
      (by decide) (by decide)⟩

/-- If the cache and the loaded listing agree on every key, the diff is
empty. -/
theorem getPendingUpdates_eq_nil {c l : List (K × V)} (hl : KeysNodup l)
    (hagree : ∀ k, lookupC c k = lookupC l k) :
    getPendingUpdates c l = [] := by
  unfold getPendingUpdates
  rw [List.append_eq_nil]
  constructor
  · rw [List.filterMap_eq_nil_iff]
    rintro ⟨a, b⟩ hmem
    have hla : lookupC l a = some b := lookupC_eq_some_of_mem hl hmem
    simp [hagree a, hla]
  · rw [List.filterMap_eq_nil_iff]
    rintro ⟨a, b⟩ hmem
    have hca : lookupC c a ≠ none := lookupC_ne_none_of_mem hmem
    rw [hagree a] at hca
    obtain ⟨w, hw⟩ := Option.ne_none_iff_exists.mp hca
    simp [hw.symm]

/-- C3.  No-op diff idempotence: when the loaded listing equals the current
cache contents exactly (same keys, value-equal payloads, expressed as equal
lookups at every key), `get_pending_updates` returns an empty result. -/
theorem noop_diff_idempotence (c l : List (K × V)) (hl : KeysNodup l)
    (hagree : ∀ k, lookupC c k = lookupC l k) :
    getPendingUpdates c l = [] :=
  getPendingUpdates_eq_nil hl hagree

/-- Witness for C3 at the cache `[(1, 10), (2, 20)]` and an equal listing
given in a different order. -/
theorem noop_diff_idempotence_witness :
    KeysNodup [(2, 20), (1, 10)] ∧
    (∀ k, lookupC ([(1, 10), (2, 20)] : List (Nat × Nat)) k =
      lookupC [(2, 20), (1, 10)] k) ∧
    getPendingUpdates ([(1, 10), (2, 20)] : List (Nat × Nat))
      [(2, 20), (1, 10)] = [] := by
  have hagree : ∀ k, lookupC ([(1, 10), (2, 20)] : List (Nat × Nat)) k =
      lookupC [(2, 20), (1, 10)] k := by
    intro k
    simp only [lookupC]
    split_ifs <;> first | rfl | omega
  exact ⟨by decide, hagree,
    noop_diff_idempotence [(1, 10), (2, 20)] [(2, 20), (1, 10)] (by decide)
      hagree⟩

/-- Modelled from the spec: applying one pending update is the orchestration
layer's job (spec §4.4, §4.5): `Created`/`Updated` → `put(id, payload_from(
loaded_items, id))`; `Deleted` → `remove(id)`. -/
def applyStep (loaded c : List (K × V)) (u : K × CacheChange) : List (K × V) :=
  match u.2 with
  | CacheChange.Deleted => (removeC c u.1).2
  | CacheChange.Created =>
    match lookupC loaded u.1 with
    | some v => (putC c u.1 v).2
    | none => c
  | CacheChange.Updated =>
    match lookupC loaded u.1 with
    | some v => (putC c u.1 v).2
    | none => c

/-- Modelled from the spec: applying every entry of a pending-updates set to
the cache, in order (spec §4.5). -/
def applyPending (loaded : List (K × V)) :
    List (K × V) → List (K × CacheChange) → List (K × V)
  | c, [] => c
  | c, u :: rest => applyPending loaded (applyStep loaded c u) rest

/-- Applying one update does not change the binding of any other key. -/
theorem lookupC_applyStep_other (l c : List (K × V)) (u : K × CacheChange)
    {q : K} (h : q ≠ u.1) : lookupC (applyStep l c u) q = lookupC c q := by
  obtain ⟨a, ch⟩ := u
  cases ch with
  | Created =>
    rcases hla : lookupC l a with _ | v
    · simp [applyStep, hla]
    · simp only [applyStep, hla]
      exact lookupC_putC_other c a v h
  | Updated =>
    rcases hla : lookupC l a with _ | v
    · simp [applyStep, hla]
    · simp only [applyStep, hla]
      exact lookupC_putC_other c a v h
  | Deleted =>
    simp only [applyStep]
    exact lookupC_removeC_other c a h

/-- Applying one update preserves uniqueness of keys. -/
theorem keysNodup_applyStep (l c : List (K × V)) (u : K × CacheChange)
    (hc : KeysNodup c) : KeysNodup (applyStep l c u) := by
  obtain ⟨a, ch⟩ := u
  cases ch with
  | Created =>
    rcases hla : lookupC l a with _ | v
    · simpa [applyStep, hla] using hc
    · simp only [applyStep, hla]
      exact keysNodup_putC a v hc
  | Updated =>
    rcases hla : lookupC l a with _ | v
    · simpa [applyStep, hla] using hc
    · simp only [applyStep, hla]
      exact keysNodup_putC a v hc
  | Deleted =>
    simp only [applyStep]
    exact keysNodup_removeC a hc

/-- A key not mentioned by the updates keeps its binding through the whole
application. -/
theorem lookupC_applyPending_not_mem (l : List (K × V))
    (updates : List (K × CacheChange)) (c : List (K × V)) (k : K)
    (h : k ∉ updates.map Prod.fst) :
    lookupC (applyPending l c updates) k = lookupC c k := by
  induction updates generalizing c with
  | nil => rfl
  | cons u rest ih =>
    simp only [List.map_cons, List.mem_cons, not_or] at h
    simp only [applyPending]
    rw [ih _ h.2]
    exact lookupC_applyStep_other l c u (h.1 : k ≠ u.1)

/-- A key mentioned by the updates ends bound as the update dictates: absent
for `Deleted`, and bound to the loaded payload for `Created`/`Updated`. -/
theorem lookupC_applyPending_mem (l : List (K × V))
    (updates : List (K × CacheChange)) (c : List (K × V)) (k : K)
    (ch : CacheChange) (hmem : (k, ch) ∈ updates)
    (hnd : (updates.map Prod.fst).Nodup) (hc : KeysNodup c)
    (hpay : ∀ q chq, (q, chq) ∈ updates → chq ≠ CacheChange.Deleted →
      lookupC l q ≠ none) :
    lookupC (applyPending l c updates) k =
      if ch = CacheChange.Deleted then none else lookupC l k := by
  induction updates generalizing c with
  | nil => cases hmem
  | cons u rest ih =>
    simp only [List.map_cons, List.nodup_cons] at hnd
    simp only [applyPending]
    rcases List.mem_cons.mp hmem with heq | hrest
    · subst heq
      rw [lookupC_applyPending_not_mem l rest _ k hnd.1]
      cases ch with
      | Deleted =>
        simp only [applyStep]
        have hrm := lookupC_removeC_self (c := c) (k := k) hc
        simp [hrm]
      | Created =>
        have hlk := hpay k CacheChange.Created (List.mem_cons_self _ _)
          (by simp)
        obtain ⟨v, hv⟩ := Option.ne_none_iff_exists.mp hlk
        simp only [applyStep, ← hv]
        rw [if_neg (by simp)]
        rw [lookupC_putC_self c k v, hv]
      | Updated =>
        have hlk := hpay k CacheChange.Updated (List.mem_cons_self _ _)
          (by simp)
        obtain ⟨v, hv⟩ := Option.ne_none_iff_exists.mp hlk
        simp only [applyStep, ← hv]
        rw [if_neg (by simp)]
        rw [lookupC_putC_self c k v, hv]
    · exact ih (applyStep l c u) hrest hnd.2 (keysNodup_applyStep l c u hc)
        (fun q chq hq hne => hpay q chq (List.mem_cons_of_mem _ hq) hne)

/-- After a full reconciliation cycle the cache agrees with the loaded
listing at every key. -/
theorem lookupC_applyPending_diff (c l : List (K × V))
    (hc : KeysNodup c) (hl : KeysNodup l) (k : K) :
    lookupC (applyPending l c (getPendingUpdates c l)) k = lookupC l k := by
  have hpay : ∀ q chq, (q, chq) ∈ getPendingUpdates c l →
      chq ≠ CacheChange.Deleted → lookupC l q ≠ none := by
    intro q chq hq hne
    cases chq with
    | Created => exact ((mem_created_iff c l q).mp hq).2
    | Updated =>
      obtain ⟨cv, lv, -, hlv, -⟩ := (mem_updated_iff c l hl q).mp hq
      simp [hlv]
    | Deleted => exact absurd rfl hne
  by_cases hmem : k ∈ (getPendingUpdates c l).map Prod.fst
  · obtain ⟨⟨q, ch⟩, hq, rfl⟩ := List.mem_map.mp hmem
    rw [lookupC_applyPending_mem l _ c _ ch hq
      (keysNodup_getPendingUpdates hc hl) hc hpay]
    cases ch with
    | Deleted =>
      rw [if_pos rfl]
      exact (((mem_deleted_iff c l q).mp hq).2).symm
    | Created => rw [if_neg (by simp)]
    | Updated => rw [if_neg (by simp)]
  · rw [lookupC_applyPending_not_mem l _ c k hmem]
    rcases hck : lookupC c k with _ | cv <;> rcases hlk : lookupC l k with _ | lv
    · rfl
    · exact absurd (List.mem_map.mpr ⟨(k, CacheChange.Created),
        (mem_created_iff c l k).mpr ⟨hck, by simp [hlk]⟩, rfl⟩) hmem
    · exact absurd (List.mem_map.mpr ⟨(k, CacheChange.Deleted),
        (mem_deleted_iff c l k).mpr ⟨by simp [hck], hlk⟩, rfl⟩) hmem
    · by_cases hcl : cv = lv
      · rw [hcl]
      · exact absurd (List.mem_map.mpr ⟨(k, CacheChange.Updated),
          (mem_updated_iff c l hl k).mpr ⟨cv, lv, hck, hlk, hcl⟩, rfl⟩) hmem

/-- C2.  Apply-then-diff convergence: applying every entry of
`get_pending_updates(C, L)` to `C` (put of the loaded payload for
`Created`/`Updated`, remove for `Deleted`) and diffing again against the
same `L` yields an empty result. -/
theorem apply_then_diff_convergence (c l : List (K × V))
    (hc : KeysNodup c) (hl : KeysNodup l) :
    getPendingUpdates (applyPending l c (getPendingUpdates c l)) l = [] :=
  getPendingUpdates_eq_nil hl (fun k => lookupC_applyPending_diff c l hc hl k)

/-- Witness for C2 at the cache `[(1, 10), (2, 20), (3, 30)]` and the loaded
listing `[(2, 20), (3, 33), (4, 40)]`. -/
theorem apply_then_diff_convergence_witness :
    KeysNodup [(1, 10), (2, 20), (3, 30)] ∧
    KeysNodup [(2, 20), (3, 33), (4, 40)] ∧
    getPendingUpdates
      (applyPending [(2, 20), (3, 33), (4, 40)]
        ([(1, 10), (2, 20), (3, 30)] : List (Nat × Nat))
        (getPendingUpdates [(1, 10), (2, 20), (3, 30)]
          [(2, 20), (3, 33), (4, 40)]))
      [(2, 20), (3, 33), (4, 40)] = [] :=
  ⟨by decide, by decide,
    apply_then_diff_convergence [(1, 10), (2, 20), (3, 30)]
      [(2, 20), (3, 33), (4, 40)] (by decide) (by decide)⟩

/-- C8.  Two-cycle scenario (spec §8), with identifiers `A = 0`, `B = 1`,
`C = 2` and payloads `v1 = 10`, `v2 = 20`, `v3 = 30`: from an empty cache a
load of `{A: v1, B: v2}` diffs to `Created` for exactly `{A, B}` and applying
yields exactly `{A: v1, B: v2}`; a second load of `{A: v1, C: v3}` diffs to
`Created` exactly `{C}` and `Deleted` exactly `{B}` with no `Updated`
entries, and applying yields exactly `{A: v1, C: v3}`. -/
theorem two_cycle_scenario :
    getPendingUpdates ([] : List (Nat × Nat)) [(0, 10), (1, 20)] =
      [(0, CacheChange.Created), (1, CacheChange.Created)] ∧
    applyPending [(0, 10), (1, 20)] ([] : List (Nat × Nat))
      (getPendingUpdates [] [(0, 10), (1, 20)]) = [(0, 10), (1, 20)] ∧
    getPendingUpdates ([(0, 10), (1, 20)] : List (Nat × Nat))
      [(0, 10), (2, 30)] =
      [(2, CacheChange.Created), (1, CacheChange.Deleted)] ∧
    applyPending [(0, 10), (2, 30)] ([(0, 10), (1, 20)] : List (Nat × Nat))
      (getPendingUpdates [(0, 10), (1, 20)] [(0, 10), (2, 30)]) =
      [(0, 10), (2, 30)] := by
  decide

/-- Modelled from the spec: the failure taxonomy of §7 — `Transient`
(network/throttling/5xx, retryable), `Rejected` (malformed request or
permission denied, terminal) and `NotFound` (point-read target absent,
terminal).  `detail` stands for the opaque failure detail. -/
inductive Failure where
  | transient (detail : Nat)
  | rejected (detail : Nat)
  | notFound
  deriving DecidableEq

/-- Modelled from the spec: the retryable/non-retryable distinction is made
by inspecting the failure kind (spec §4.1): only transient failures are
retried. -/
def Failure.isTransient : Failure → Bool
  | Failure.transient _ => true
  | _ => false

/-- Modelled from the spec: the outcome surfaced by the Retry Executor —
success, a non-retryable failure surfaced unchanged, or `BudgetExhausted`
carrying the last observed failure unchanged (spec §4.1, §7). -/
inductive RetryResult (α : Type) where
  | success (a : α)
  | failed (f : Failure)
  | budgetExhausted (last : Failure)
  deriving DecidableEq

/-- One finished run of the Retry Executor: its outcome, how many attempts
were made, and the total backoff delay slept, in milliseconds. -/
structure RetryRun (α : Type) where
  result : RetryResult α
  attempts : Nat
  elapsedMs : Nat
  deriving DecidableEq

/-- The retry budget of spec §4.1/§6 in milliseconds: 5 seconds wall clock. -/
def retryBudgetMs : Nat := API_RETRY_TIMEOUT_IN_SECONDS * 1000

/-- Modelled from the spec: the Retry Executor loop (spec §4.1, the `retry`
module is declared in `src/private/sources/mod.rs` but its code is not among
the examined sources).  `op i` is the outcome of attempt number `i` and
`delay i` the jittered backoff delay scheduled after it.  The loop retries a
transient failure only while the accumulated delay stays within the budget;
a non-retryable failure or a success returns at once.  Time is counted in
whole milliseconds, so any backoff schedule makes at most `budget` sleeps;
`fuel` bounds the recursion accordingly, and a run that exhausts it is a run
whose wall clock passed the budget, returning `BudgetExhausted` with the
failure observed at the current attempt. -/
def retryLoop {α : Type} (op : Nat → Except Failure α) (delay : Nat → Nat)
    (budget : Nat) : Nat → Nat → Nat → RetryRun α
  | 0, i, elapsed =>
    match op i with
    | Except.ok a => ⟨RetryResult.success a, i + 1, elapsed⟩
    | Except.error f => ⟨RetryResult.budgetExhausted f, i + 1, elapsed⟩
  | fuel + 1, i, elapsed =>
    match op i with
    | Except.ok a => ⟨RetryResult.success a, i + 1, elapsed⟩
    | Except.error f =>
      if f.isTransient then
        if elapsed + delay i ≤ budget then
          retryLoop op delay budget fuel (i + 1) (elapsed + delay i)
        else ⟨RetryResult.budgetExhausted f, i + 1, elapsed⟩
      else ⟨RetryResult.failed f, i + 1, elapsed⟩

/-- Modelled from the spec: one wrapped remote operation executed by the
Retry Executor with the fixed 5-second budget (spec §4.1, §6). -/
def retryExec {α : Type} (op : Nat → Except Failure α)
    (delay : Nat → Nat) : RetryRun α :=
  retryLoop op delay retryBudgetMs (retryBudgetMs + 1) 0 0

/-- When every attempt fails transiently, the loop ends in
`BudgetExhausted` carrying the last attempt's failure, never sleeps past the
budget, and makes at least one attempt past the starting index. -/
theorem retryLoop_always_transient {α : Type} (op : Nat → Except Failure α)
    (delay : Nat → Nat) (budget : Nat) (e : Nat → Nat)
    (hop : ∀ i, op i = Except.error (Failure.transient (e i))) :
    ∀ fuel i elapsed, elapsed ≤ budget →
      (retryLoop op delay budget fuel i elapsed).result =
        RetryResult.budgetExhausted (Failure.transient
          (e ((retryLoop op delay budget fuel i elapsed).attempts - 1))) ∧
      (retryLoop op delay budget fuel i elapsed).elapsedMs ≤ budget ∧
      i + 1 ≤ (retryLoop op delay budget fuel i elapsed).attempts := by
  intro fuel
  induction fuel with
  | zero =>
    intro i elapsed he
    simp [retryLoop, hop i, he]
  | succ n ih =>
    intro i elapsed he
    by_cases hd : elapsed + delay i ≤ budget
    · have hstep : retryLoop op delay budget (n + 1) i elapsed =
          retryLoop op delay budget n (i + 1) (elapsed + delay i) := by
        simp [retryLoop, hop i, Failure.isTransient, hd]
      rw [hstep]
      obtain ⟨h1, h2, h3⟩ := ih (i + 1) (elapsed + delay i) hd
      exact ⟨h1, h2, by omega⟩
    · have hstep : retryLoop op delay budget (n + 1) i elapsed =
          ⟨RetryResult.budgetExhausted (Failure.transient (e i)), i + 1,
            elapsed⟩ := by
        simp [retryLoop, hop i, Failure.isTransient, hd]
      rw [hstep]
      simp [he]

/-- C5.  Retry budget ceiling: when the underlying call always fails with a
transient error (and the first scheduled backoff fits the budget, as any
jittered exponential schedule based well below 5 s does), the Retry Executor
returns `BudgetExhausted` carrying the last observed transient failure, the
total backoff slept stays within the 5-second budget, and more than one
attempt is made. -/
theorem retry_budget_ceiling {α : Type} (op : Nat → Except Failure α)
    (delay : Nat → Nat) (e : Nat → Nat)
    (hop : ∀ i, op i = Except.error (Failure.transient (e i)))
    (hd0 : delay 0 ≤ retryBudgetMs) :
    (retryExec op delay).result =
      RetryResult.budgetExhausted (Failure.transient
        (e ((retryExec op delay).attempts - 1))) ∧
    (retryExec op delay).elapsedMs ≤ retryBudgetMs ∧
    1 < (retryExec op delay).attempts := by
  have hstep : retryExec op delay =
      retryLoop op delay retryBudgetMs retryBudgetMs 1 (delay 0) := by
    rw [retryExec, retryLoop, hop 0]
    simp [Failure.isTransient, hd0]
  rw [hstep]
  obtain ⟨h1, h2, h3⟩ := retryLoop_always_transient op delay retryBudgetMs e
    hop retryBudgetMs 1 (delay 0) hd0
  exact ⟨h1, h2, by omega⟩

/-- Witness for C5: an operation failing transiently on every attempt, with
a constant 5000 ms backoff schedule. -/
theorem retry_budget_ceiling_witness :
    (∀ i, (fun _ => Except.error (Failure.transient 7) :
      Nat → Except Failure Nat) i =
        Except.error (Failure.transient ((fun _ => 7) i))) ∧
    (fun _ => (5000 : Nat)) 0 ≤ retryBudgetMs ∧
    ((retryExec (fun _ => Except.error (Failure.transient 7) :
        Nat → Except Failure Nat) (fun _ => 5000)).result =
      RetryResult.budgetExhausted (Failure.transient
        ((fun _ => 7) ((retryExec (fun _ => Except.error
          (Failure.transient 7) : Nat → Except Failure Nat)
            (fun _ => 5000)).attempts - 1))) ∧
     (retryExec (fun _ => Except.error (Failure.transient 7) :
        Nat → Except Failure Nat) (fun _ => 5000)).elapsedMs ≤
          retryBudgetMs ∧
     1 < (retryExec (fun _ => Except.error (Failure.transient 7) :
        Nat → Except Failure Nat) (fun _ => 5000)).attempts) :=
  ⟨fun _ => rfl, by decide,
    retry_budget_ceiling (fun _ => Except.error (Failure.transient 7))
      (fun _ => 5000) (fun _ => 7) (fun _ => rfl) (by decide)⟩

/-- C6.  Non-retryable short-circuit: when the underlying call fails with a
`Rejected` error on its first attempt, the Retry Executor returns that error
unchanged after exactly one attempt, having slept no backoff delay at all. -/
theorem nonretryable_short_circuit {α : Type} (op : Nat → Except Failure α)
    (delay : Nat → Nat) (d : Nat)
    (hop : op 0 = Except.error (Failure.rejected d)) :
    retryExec op delay =
      ⟨RetryResult.failed (Failure.rejected d), 1, 0⟩ := by
  simp [retryExec, retryLoop, hop, Failure.isTransient]

/-- Witness for C6: an operation rejected on its first attempt. -/
theorem nonretryable_short_circuit_witness :
    (fun _ => Except.error (Failure.rejected 3) :
      Nat → Except Failure Nat) 0 = Except.error (Failure.rejected 3) ∧
    retryExec (fun _ => Except.error (Failure.rejected 3) :
        Nat → Except Failure Nat) (fun _ => 100) =
      ⟨RetryResult.failed (Failure.rejected 3), 1, 0⟩ :=
  ⟨rfl, nonretryable_short_circuit (fun _ => Except.error
    (Failure.rejected 3)) (fun _ => 100) 3 rfl⟩

/-- Modelled from the spec: the Loader failure type (spec §4.2), which
distinguishes remote-exhausted-retries from remote-rejected-request. -/
inductive LoaderError where
  | retriesExhausted (last : Failure)
  | rejectedRequest (detail : Nat)
  deriving DecidableEq

/-- Modelled from the spec: the Reader failure type (spec §4.3, §7), with
`NotFound` as a terminal, non-retryable outcome. -/
inductive ReaderError where
  | notFound
  | retriesExhausted (last : Failure)
  | rejectedRequest (detail : Nat)
  deriving DecidableEq

/-- Modelled from the spec: one reconciliation cycle of the Policy Source
(spec §4.5): `loaded = Loader.load(store_id)?` — a Loader failure aborts the
cycle before any diff is computed or applied — and otherwise the diff is
computed and every entry applied.  The result pairs the cycle outcome with
the cache state afterwards. -/
def reconcile (c : List (K × V))
    (loadResult : Except LoaderError (List (K × V))) :
    Except LoaderError Unit × List (K × V) :=
  match loadResult with
  | Except.error e => (Except.error e, c)
  | Except.ok loaded =>
    (Except.ok (), applyPending loaded c (getPendingUpdates c loaded))

/-- Modelled from the spec: one on-demand lookup of the Policy Source
(spec §4.5): on a cache miss, `Reader.read` is consulted; on success the
value is `put` into the cache and returned; on any Reader failure —
`NotFound` included — an absent result is returned and the cache is left
as it was.  `readResult` is the outcome `Reader.read` would produce. -/
def onDemandLookup (c : List (K × V)) (k : K)
    (readResult : Except ReaderError V) : Option V × List (K × V) :=
  match lookupC c k with
  | some v => (some v, c)
  | none =>
    match readResult with
    | Except.ok v => (some v, (putC c k v).2)
    | Except.error _ => (none, c)

/-- C7.  Failure atomicity: a reconciliation cycle whose load fails leaves
the cache exactly as it was (and surfaces the Loader error), and an
on-demand lookup on a cache miss whose read fails — `ReaderError.notFound`
included — returns an absent result and leaves the cache exactly as it
was. -/
theorem failure_atomicity (c : List (K × V)) (e : LoaderError) (k : K)
    (re : ReaderError) (hmiss : lookupC c k = none) :
    reconcile c (Except.error e) = (Except.error e, c) ∧
    onDemandLookup c k (Except.error re) = (none, c) := by
  refine ⟨rfl, ?_⟩
  simp [onDemandLookup, hmiss]

/-- Witness for C7 at the cache `[(1, 10)]`, the missing key `2`, a loader
error and `ReaderError.notFound`. -/
theorem failure_atomicity_witness :
    lookupC ([(1, 10)] : List (Nat × Nat)) 2 = none ∧
    (reconcile ([(1, 10)] : List (Nat × Nat))
        (Except.error (LoaderError.rejectedRequest 0)) =
      (Except.error (LoaderError.rejectedRequest 0), [(1, 10)]) ∧
     onDemandLookup ([(1, 10)] : List (Nat × Nat)) 2
        (Except.error ReaderError.notFound) = (none, [(1, 10)])) :=
  ⟨by decide, failure_atomicity [(1, 10)] (LoaderError.rejectedRequest 0) 2
    ReaderError.notFound (by decide)⟩

/-- Embedded from `src/private/sources/mod.rs` lines 75 and 85: a call to a
`&self` method of the `Cache` trait, as a state transformer returning the
method's result together with the cache afterwards.  Because `get` and
`get_pending_updates` borrow the cache immutably, the state afterwards is
the state before. -/
def getCall (c : List (K × V)) (k : K) : Option V × List (K × V) :=
  (lookupC c k, c)

/-- Embedded from `src/private/sources/mod.rs` line 85: the
`get_pending_updates(&self, ids_map)` call as a state transformer. -/
def getPendingUpdatesCall (c l : List (K × V)) :
    List (K × CacheChange) × List (K × V) :=
  (getPendingUpdates c l, c)

/-- C9.  Read-only observers: for every cache state, key and loaded listing,
calling `get` or `get_pending_updates` leaves the cache contents exactly
unchanged. -/
theorem read_only_observers (c l : List (K × V)) (k : K) :
    (getCall c k).2 = c ∧ (getPendingUpdatesCall c l).2 = c :=
  ⟨rfl, rfl⟩

end AvpLocalAgent
